import Mathlib

/-!
Verification of the hathor address index (`hathor/indexes/rocksdb_address_index.py`
and `hathor/indexes/rocksdb_utils.py`) over a shallow embedding.

Byte strings are `List Nat` (each element a byte value).  The rocksdb column
family is modelled as a list of keys kept sorted in ascending byte-lexicographic
order with no duplicates, which is precisely the observable state of a rocksdb
keyspace under its bytewise comparator.  `put` is ordered insertion, `delete`
removes the key, and an iterator `seek(k)` positions at the first stored key
that is not below `k`, i.e. drops the strictly-smaller prefix.

Python `assert` failures and exceptions are modelled by `Option`: `none` means
the operation raises.
-/

namespace Khathor

/-- Byte strings (contents of Python `bytes`). -/
abbrev Bytes := List Nat

/-- The rocksdb bytewise comparator: strict lexicographic order on byte
strings, a shorter strict prefix sorting first. -/
abbrev keyLt : Bytes → Bytes → Prop := List.Lex (· < ·)

instance keyLt.decidableRel : DecidableRel keyLt :=
  fun x y => List.Lex.decidableRel (· < ·) x y

/-- `struct.pack('>I', t)`: 4-byte big-endian encoding of a 32-bit timestamp. -/
def encodeTimestamp (t : Nat) : Bytes :=
  [t / 16777216 % 256, t / 65536 % 256, t / 256 % 256, t % 256]

/-- `struct.unpack('>I', bs)`: big-endian decoding. -/
def decodeTimestamp (bs : Bytes) : Nat :=
  bs.foldl (fun acc b => acc * 256 + b) 0

/-- `_to_key(address, tx)` with a transaction:
`address.encode('ascii') + struct.pack('>I', tx.timestamp) + tx.hash`.
The address argument is already in encoded byte form. -/
def toKey (address : Bytes) (timestamp : Nat) (hash : Bytes) : Bytes :=
  address ++ encodeTimestamp timestamp ++ hash

/-- `_to_key(address)` without a transaction: the 34-byte seek prefix. -/
def toSeekKey (address : Bytes) : Bytes :=
  address

/-- `bytes.decode('ascii')` succeeds iff every byte is below 128. -/
def isAscii (bs : Bytes) : Bool :=
  bs.all (fun b => decide (b < 128))

/-- `_from_key(key)`: asserts the key is 70 bytes, ascii-decodes the first
34 bytes, unpacks the big-endian timestamp, returns `(address, ts, hash)`.
`none` models an assertion/decoding failure. -/
def fromKey (key : Bytes) : Option (Bytes × Nat × Bytes) :=
  if key.length = 34 + 4 + 32 then
    if isAscii (key.take 34) then
      some (key.take 34, decodeTimestamp ((key.drop 34).take 4), key.drop 38)
    else none
  else none

/-- The key set of the column family: sorted ascending, duplicate-free. -/
abbrev Keyspace := List Bytes

/-- `db.put`: ordered insertion, a no-op when the key is already present. -/
def putKey (k : Bytes) : Keyspace → Keyspace
  | [] => [k]
  | k' :: ks =>
    if keyLt k k' then k :: k' :: ks
    else if k = k' then k' :: ks
    else k' :: putKey k ks

/-- `db.delete`: removes a key, a no-op when absent. -/
def delKey (k : Bytes) (ks : Keyspace) : Keyspace :=
  ks.filter (fun x => decide (x ≠ k))

/-- `it.seek(target)`: position at the first key that is not below `target`;
the remaining iteration is the suffix from there. -/
def seek (target : Bytes) (ks : Keyspace) : Keyspace :=
  ks.dropWhile (fun x => decide (keyLt x target))

/-- The data of a transaction as seen by the index: its hash and timestamp,
and the address set computed by `_get_addresses` (already ascii-encoded). -/
structure Tx where
  hash : Bytes
  timestamp : Nat
  addresses : List Bytes

/-- Index state: the column-family key set plus the log of
`WALLET_ADDRESS_HISTORY` events published so far (address, tx hash). -/
structure IndexState where
  keys : Keyspace
  published : List (Bytes × Bytes)

def emptyState : IndexState :=
  { keys := [], published := [] }

/-- `add_tx(tx)`: puts `(address, tx)` keys for every address, then
`publish_tx` publishes one event per address. -/
def addTx (tx : Tx) (s : IndexState) : IndexState :=
  { keys := tx.addresses.foldl
      (fun ks a => putKey (toKey a tx.timestamp tx.hash) ks) s.keys
    published := s.published ++ tx.addresses.map (fun a => (a, tx.hash)) }

/-- `remove_tx(tx)`: deletes the `(address, tx)` keys; publishes nothing. -/
def removeTx (tx : Tx) (s : IndexState) : IndexState :=
  { keys := tx.addresses.foldl
      (fun ks a => delKey (toKey a tx.timestamp tx.hash) ks) s.keys
    published := s.published }

/-- The loop of `_get_from_address_iter` after the seek: decode each key,
stop at the first key whose address differs, collect tx hashes.
`none` models a `_from_key` assertion failure. -/
def scanCollect (address : Bytes) : Keyspace → Option (List Bytes)
  | [] => some []
  | k :: ks =>
    match fromKey k with
    | none => none
    | some (addr, _, txHash) =>
      if addr = address then
        match scanCollect address ks with
        | none => none
        | some rest => some (txHash :: rest)
      else some []

/-- `get_from_address(address)`: seek to the 34-byte prefix, scan forward. -/
def getFromAddress (address : Bytes) (ks : Keyspace) : Option (List Bytes) :=
  scanCollect address (seek (toSeekKey address) ks)

/-- `get_sorted_from_address` runs the identical iteration. -/
def getSortedFromAddress (address : Bytes) (ks : Keyspace) : Option (List Bytes) :=
  scanCollect address (seek (toSeekKey address) ks)

/-- `is_address_empty(address)` exactly as written in the source: seek, take
`it.get()`, decode it with `_from_key`, and return `addr == address`.
When the seek lands past the end of the keyspace `it.get()` yields nothing
and `_from_key` raises: modelled by `none`. -/
def isAddressEmpty (address : Bytes) (ks : Keyspace) : Option Bool :=
  match seek (toSeekKey address) ks with
  | [] => none
  | k :: _ =>
    match fromKey k with
    | none => none
    | some (addr, _, _) => some (decide (addr = address))

/-- Inserting a list of raw `(address, timestamp, hash)` entries one by one,
in the given order, into a keyspace. -/
def insertEntries (es : List (Bytes × Nat × Bytes)) (ks : Keyspace) : Keyspace :=
  es.foldl (fun ks e => putKey (toKey e.1 e.2.1 e.2.2) ks) ks

/-- Validity of the arguments `_to_key` is called with by `add_tx`: a
34-character ascii address, a 32-bit timestamp, a 32-byte hash. -/
def ValidEntry (a : Bytes) (t : Nat) (h : Bytes) : Prop :=
  a.length = 34 ∧ (∀ b ∈ a, b < 128) ∧ t < 4294967296 ∧ h.length = 32

/-- Preconditions `add_tx` needs to run without an assertion failure. -/
def ValidTx (tx : Tx) : Prop :=
  tx.hash.length = 32 ∧ tx.timestamp < 4294967296 ∧
    ∀ a ∈ tx.addresses, a.length = 34 ∧ ∀ b ∈ a, b < 128

/-- The shape every stored key must have for `_from_key` to succeed:
70 bytes long, ascii address prefix. -/
def StoredKeyOK (k : Bytes) : Prop :=
  k.length = 70 ∧ ∀ b ∈ k.take 34, b < 128

instance (k : Bytes) : Decidable (StoredKeyOK k) := by
  unfold StoredKeyOK; infer_instance

/-! ## Model of the rocksdb database and column-family lifecycle -/

/-- A column-family handle: its name and its internal id.  Ids handed out by
rocksdb are fresh, monotonically increasing, never reused; handles returned
by `create_column_family` are valid. -/
structure ColumnFamily where
  name : Bytes
  id : Nat
  deriving DecidableEq

/-- The shared rocksdb database: the next fresh column-family id, the live
column families, and the stored entries tagged by column-family id. -/
structure RocksDB where
  nextId : Nat
  families : List ColumnFamily
  data : List (Nat × Bytes)

/-- `db.get_column_family(name)`. -/
def getColumnFamily (name : Bytes) (db : RocksDB) : Option ColumnFamily :=
  db.families.find? (fun cf => decide (cf.name = name))

/-- `db.drop_column_family(cf)`: removes the partition and all its entries. -/
def dropColumnFamily (cf : ColumnFamily) (db : RocksDB) : RocksDB :=
  { db with families := db.families.filter (fun c => decide (c.id ≠ cf.id))
            data := db.data.filter (fun e => decide (e.1 ≠ cf.id)) }

/-- `db.create_column_family(name, opts)`: a new partition with a fresh id. -/
def createColumnFamily (name : Bytes) (db : RocksDB) : ColumnFamily × RocksDB :=
  (⟨name, db.nextId⟩,
   { db with nextId := db.nextId + 1
             families := ⟨name, db.nextId⟩ :: db.families })

/-- `_fresh_cf(name)` / `_reset_cf`: look the partition up, drop it if it
exists (recording its prior id), create a fresh one, and assert that the new
id differs from the prior one.  `none` models the assertion firing. -/
def freshCf (name : Bytes) (db : RocksDB) : Option (ColumnFamily × RocksDB) :=
  let old := getColumnFamily name db
  let db1 := match old with
    | some cf => dropColumnFamily cf db
    | none => db
  let cfdb := createColumnFamily name db1
  if (match old with
      | some cf => decide (cfdb.1.id ≠ cf.id)
      | none => true) then
    some cfdb
  else none

/-- `db.put((cf, key), b'')` restricted to the entry set of the database. -/
def dbPut (cf : ColumnFamily) (k : Bytes) (db : RocksDB) : RocksDB :=
  if (cf.id, k) ∈ db.data then db
  else { db with data := (cf.id, k) :: db.data }

/-- Insert a list of keys into a column family. -/
def dbPutAll (cf : ColumnFamily) (ks : List Bytes) (db : RocksDB) : RocksDB :=
  ks.foldl (fun d k => dbPut cf k d) db

/-- The entries currently stored under a column family. -/
def cfKeys (cf : ColumnFamily) (db : RocksDB) : List Bytes :=
  (db.data.filter (fun e => decide (e.1 = cf.id))).map (·.2)

/-- The freshness invariant rocksdb maintains for column-family ids: every
live id and every stored entry's id is below the next id to be handed out. -/
def DbWF (db : RocksDB) : Prop :=
  (∀ cf ∈ db.families, cf.id < db.nextId) ∧ ∀ e ∈ db.data, e.1 < db.nextId

/-- Every key of the keyspace was produced by the key encoder from valid
arguments (the state `add_tx` alone can reach). -/
def ValidKeyspace (ks : Keyspace) : Prop :=
  ∀ k ∈ ks, ∃ a t h, ValidEntry a t h ∧ k = toKey a t h

/-- The timestamp and hash components of a full 70-byte key. -/
def decodeSuffix (k : Bytes) : Nat × Bytes :=
  (decodeTimestamp ((k.drop 34).take 4), k.drop 38)

/-- Ascending timestamp order, ties broken by ascending hash bytes. -/
def tsHashLt (p q : Nat × Bytes) : Prop :=
  p.1 < q.1 ∨ (p.1 = q.1 ∧ keyLt p.2 q.2)

instance (a : Bytes) (t : Nat) (h : Bytes) : Decidable (ValidEntry a t h) := by
  unfold ValidEntry; infer_instance

instance (tx : Tx) : Decidable (ValidTx tx) := by
  unfold ValidTx; infer_instance

instance (db : RocksDB) : Decidable (DbWF db) := by
  unfold DbWF; infer_instance

/-! ## Concrete sample data used by witnesses and counterexamples -/

/-- A 34-character address (the character `1` repeated). -/
def addrA : Bytes := List.replicate 34 49

/-- A distinct 34-character address (the character `2` repeated). -/
def addrB : Bytes := List.replicate 34 50

/-- A 32-byte transaction hash. -/
def hash1 : Bytes := List.replicate 31 0 ++ [1]

/-- Another 32-byte transaction hash. -/
def hash2 : Bytes := List.replicate 31 0 ++ [2]

/-- A transaction touching only `addrA`. -/
def txA : Tx := { hash := hash1, timestamp := 100, addresses := [addrA] }

/-- A transaction touching only `addrB`. -/
def txB : Tx := { hash := hash2, timestamp := 50, addresses := [addrB] }

/-- A database with no column families and no entries. -/
def emptyDb : RocksDB := { nextId := 0, families := [], data := [] }

/-! ## The comparator is a strict total order -/

theorem keyLt_trans {x y z : Bytes} (h1 : keyLt x y) (h2 : keyLt y z) : keyLt x z :=
  trans_of keyLt h1 h2

theorem keyLt_irrefl (x : Bytes) : ¬ keyLt x x :=
  irrefl_of keyLt x

theorem keyLt_asymm {x y : Bytes} (h : keyLt x y) : ¬ keyLt y x :=
  asymm_of keyLt h

theorem keyLt_trichotomy (x y : Bytes) : keyLt x y ∨ x = y ∨ keyLt y x :=
  trichotomous_of keyLt x y

theorem not_keyLt_nil (x : Bytes) : ¬ keyLt x [] := by
  intro h; cases h

theorem keyLt_nil_iff : keyLt ([] : Bytes) [] ↔ False :=
  iff_false_intro (not_keyLt_nil [])

theorem keyLt_nil_cons (b : Nat) (ys : Bytes) : keyLt [] (b :: ys) :=
  List.Lex.nil

theorem keyLt_cons_iff {a b : Nat} {xs ys : Bytes} :
    keyLt (a :: xs) (b :: ys) ↔ a < b ∨ (a = b ∧ keyLt xs ys) := by
  constructor
  · intro h
    cases h with
    | rel h => exact Or.inl h
    | cons h => exact Or.inr ⟨rfl, h⟩
  · rintro (h | ⟨rfl, h⟩)
    · exact List.Lex.rel h
    · exact List.Lex.cons h

/-- Decomposition of the lexicographic order along prefixes of equal length. -/
theorem keyLt_append_iff :
    ∀ (u1 u2 v1 v2 : Bytes), u1.length = u2.length →
      (keyLt (u1 ++ v1) (u2 ++ v2) ↔ keyLt u1 u2 ∨ (u1 = u2 ∧ keyLt v1 v2))
  | [], [], v1, v2, _ => by
      simp only [List.nil_append]
      constructor
      · intro hv
        exact Or.inr ⟨by trivial, hv⟩
      · intro hd
        rcases hd with hn | hn
        · exact absurd hn (not_keyLt_nil [])
        · exact hn.2
  | [], b :: u2, _, _, hlen => by simp at hlen
  | a :: u1, [], _, _, hlen => by simp at hlen
  | a :: u1, b :: u2, v1, v2, hlen => by
      simp only [List.cons_append, keyLt_cons_iff]
      rw [keyLt_append_iff u1 u2 v1 v2 (by simpa using hlen)]
      constructor
      · rintro (hab | ⟨rfl, hd | ⟨rfl, hv⟩⟩)
        · exact Or.inl (Or.inl hab)
        · exact Or.inl (Or.inr ⟨rfl, hd⟩)
        · exact Or.inr ⟨rfl, hv⟩
      · rintro ((hab | ⟨rfl, hd⟩) | ⟨heq, hv⟩)
        · exact Or.inl hab
        · exact Or.inr ⟨rfl, Or.inl hd⟩
        · injection heq with h1 h2
          subst h1; subst h2
          exact Or.inr ⟨rfl, Or.inr ⟨rfl, hv⟩⟩

/-! ## Key codec lemmas -/

theorem encodeTimestamp_length (t : Nat) : (encodeTimestamp t).length = 4 :=
  rfl

theorem decode_encodeTimestamp {t : Nat} (ht : t < 4294967296) :
    decodeTimestamp (encodeTimestamp t) = t := by
  simp only [encodeTimestamp, decodeTimestamp, List.foldl]
  omega

theorem encodeTimestamp_lt_iff {t1 t2 : Nat} (h1 : t1 < 4294967296)
    (h2 : t2 < 4294967296) :
    keyLt (encodeTimestamp t1) (encodeTimestamp t2) ↔ t1 < t2 := by
  simp only [encodeTimestamp, keyLt_cons_iff, keyLt_nil_iff, and_false, or_false]
  have e1 : t1 / 16777216 % 256 = t1 / 16777216 := Nat.mod_eq_of_lt (by omega)
  have e2 : t2 / 16777216 % 256 = t2 / 16777216 := Nat.mod_eq_of_lt (by omega)
  rw [e1, e2]
  omega

theorem encodeTimestamp_inj {t1 t2 : Nat} (h1 : t1 < 4294967296)
    (h2 : t2 < 4294967296) (h : encodeTimestamp t1 = encodeTimestamp t2) :
    t1 = t2 := by
  have := congrArg decodeTimestamp h
  rwa [decode_encodeTimestamp h1, decode_encodeTimestamp h2] at this

theorem toKey_length {a : Bytes} (t : Nat) {h : Bytes} (ha : a.length = 34)
    (hh : h.length = 32) : (toKey a t h).length = 70 := by
  simp [toKey, ha, hh, encodeTimestamp]

theorem toKey_take {a : Bytes} (t : Nat) (h : Bytes) (ha : a.length = 34) :
    (toKey a t h).take 34 = a := by
  rw [toKey, List.append_assoc]
  exact List.take_left' ha

theorem toKey_drop34 {a : Bytes} (t : Nat) (h : Bytes) (ha : a.length = 34) :
    (toKey a t h).drop 34 = encodeTimestamp t ++ h := by
  rw [toKey, List.append_assoc]
  exact List.drop_left' ha

theorem toKey_drop38 {a : Bytes} (t : Nat) (h : Bytes) (ha : a.length = 34) :
    (toKey a t h).drop 38 = h := by
  have h2 : ((toKey a t h).drop 34).drop 4 = (toKey a t h).drop 38 := by
    rw [List.drop_drop]
  rw [← h2, toKey_drop34 t h ha]
  exact List.drop_left' (encodeTimestamp_length t)

theorem fromKey_toKey {a : Bytes} {t : Nat} {h : Bytes} (hv : ValidEntry a t h) :
    fromKey (toKey a t h) = some (a, t, h) := by
  obtain ⟨ha, hascii, ht, hh⟩ := hv
  have hlen : (toKey a t h).length = 34 + 4 + 32 := toKey_length t ha hh
  have hasc : isAscii ((toKey a t h).take 34) = true := by
    rw [toKey_take t h ha]
    exact List.all_eq_true.mpr fun b hb => decide_eq_true (hascii b hb)
  rw [fromKey, if_pos hlen, if_pos hasc, toKey_take t h ha, toKey_drop34 t h ha,
    toKey_drop38 t h ha, List.take_left' (encodeTimestamp_length t),
    decode_encodeTimestamp ht]

theorem toKey_inj {a a' : Bytes} {t t' : Nat} {h h' : Bytes}
    (hv : ValidEntry a t h) (hv' : ValidEntry a' t' h')
    (heq : toKey a t h = toKey a' t' h') : a = a' ∧ t = t' ∧ h = h' := by
  have := (fromKey_toKey hv).symm.trans (heq ▸ fromKey_toKey hv')
  simpa using this

/-! ## Keyspace operation lemmas -/

theorem mem_putKey {x k : Bytes} : ∀ {l : Keyspace}, x ∈ putKey k l ↔ x = k ∨ x ∈ l
  | [] => by simp [putKey]
  | k' :: ks => by
      rw [putKey]
      split_ifs with hlt heq
      · simp
      · subst heq
        simp only [List.mem_cons]
        tauto
      · simp only [List.mem_cons, mem_putKey (l := ks)]
        tauto

theorem sorted_putKey {k : Bytes} :
    ∀ {l : Keyspace}, l.Sorted keyLt → (putKey k l).Sorted keyLt
  | [], _ => by simp [putKey]
  | k' :: ks, hs => by
      rw [List.sorted_cons] at hs
      obtain ⟨hk', hks⟩ := hs
      rw [putKey]
      split_ifs with hlt heq
      · refine List.sorted_cons.mpr ⟨?_, List.sorted_cons.mpr ⟨hk', hks⟩⟩
        intro b hb
        rcases List.mem_cons.mp hb with rfl | hb
        · exact hlt
        · exact keyLt_trans hlt (hk' b hb)
      · exact List.sorted_cons.mpr ⟨hk', hks⟩
      · have hgt : keyLt k' k := by
          rcases keyLt_trichotomy k k' with hc | hc | hc
          · exact absurd hc hlt
          · exact absurd hc heq
          · exact hc
        refine List.sorted_cons.mpr ⟨?_, sorted_putKey hks⟩
        intro b hb
        rcases mem_putKey.mp hb with rfl | hb
        · exact hgt
        · exact hk' b hb

theorem mem_delKey {x k : Bytes} {l : Keyspace} :
    x ∈ delKey k l ↔ x ∈ l ∧ x ≠ k := by
  simp [delKey]

theorem sorted_delKey {k : Bytes} {l : Keyspace} (h : l.Sorted keyLt) :
    (delKey k l).Sorted keyLt :=
  List.Pairwise.filter _ h

theorem mem_foldl_putKey {α : Type} (f : α → Bytes) :
    ∀ (es : List α) (l : Keyspace) (x : Bytes),
      x ∈ es.foldl (fun ks e => putKey (f e) ks) l ↔ (∃ e ∈ es, x = f e) ∨ x ∈ l
  | [], l, x => by simp
  | e :: es, l, x => by
      rw [List.foldl_cons, mem_foldl_putKey f es]
      constructor
      · rintro (⟨e', he', rfl⟩ | hmem)
        · exact Or.inl ⟨e', List.mem_cons_of_mem e he', rfl⟩
        · rcases mem_putKey.mp hmem with rfl | hx
          · exact Or.inl ⟨e, List.mem_cons_self e es, rfl⟩
          · exact Or.inr hx
      · rintro (⟨e', he', rfl⟩ | hx)
        · rcases List.mem_cons.mp he' with rfl | he'
          · exact Or.inr (mem_putKey.mpr (Or.inl rfl))
          · exact Or.inl ⟨e', he', rfl⟩
        · exact Or.inr (mem_putKey.mpr (Or.inr hx))

theorem sorted_foldl_putKey {α : Type} (f : α → Bytes) :
    ∀ (es : List α) {l : Keyspace}, l.Sorted keyLt →
      (es.foldl (fun ks e => putKey (f e) ks) l).Sorted keyLt
  | [], _, h => h
  | e :: es, l, h => by
      rw [List.foldl_cons]
      exact sorted_foldl_putKey f es (sorted_putKey h)

theorem mem_foldl_delKey {α : Type} (f : α → Bytes) :
    ∀ (es : List α) (l : Keyspace) (x : Bytes),
      x ∈ es.foldl (fun ks e => delKey (f e) ks) l ↔ x ∈ l ∧ ∀ e ∈ es, x ≠ f e
  | [], l, x => by simp
  | e :: es, l, x => by
      rw [List.foldl_cons, mem_foldl_delKey f es]
      simp only [mem_delKey]
      constructor
      · rintro ⟨⟨hx, hne⟩, hall⟩
        refine ⟨hx, fun e' he' => ?_⟩
        rcases List.mem_cons.mp he' with rfl | he'
        · exact hne
        · exact hall e' he'
      · rintro ⟨hx, hall⟩
        exact ⟨⟨hx, hall e (List.mem_cons_self e es)⟩,
          fun e' he' => hall e' (List.mem_cons_of_mem e he')⟩

theorem sorted_foldl_delKey {α : Type} (f : α → Bytes) :
    ∀ (es : List α) {l : Keyspace}, l.Sorted keyLt →
      (es.foldl (fun ks e => delKey (f e) ks) l).Sorted keyLt
  | [], _, h => h
  | e :: es, l, h => by
      rw [List.foldl_cons]
      exact sorted_foldl_delKey f es (sorted_delKey h)

/-- Two sorted duplicate-free keyspaces with the same members are equal. -/
theorem sorted_eq_of_mem_iff {l1 l2 : Keyspace} (h1 : l1.Sorted keyLt)
    (h2 : l2.Sorted keyLt) (h : ∀ x, x ∈ l1 ↔ x ∈ l2) : l1 = l2 :=
  List.eq_of_perm_of_sorted
    ((List.perm_ext_iff_of_nodup h1.nodup h2.nodup).mpr h) h1 h2

/-! ## Comparing full keys against seek prefixes -/

/-- A full key is below an equal-length-address prefix iff its address is. -/
theorem keyLt_key_target {a A : Bytes} (t : Nat) (h : Bytes)
    (hlen : a.length = A.length) :
    keyLt (toKey a t h) A ↔ keyLt a A := by
  have h2 := keyLt_append_iff a A (encodeTimestamp t ++ h) [] hlen
  rw [List.append_nil] at h2
  rw [toKey, List.append_assoc, h2]
  simp [not_keyLt_nil]

/-- A prefix is below a full key iff it is below or equal to its address. -/
theorem target_keyLt_key {A a : Bytes} (t : Nat) (h : Bytes)
    (hlen : A.length = a.length) :
    keyLt A (toKey a t h) ↔ keyLt A a ∨ A = a := by
  have h2 := keyLt_append_iff A a [] (encodeTimestamp t ++ h) hlen
  rw [List.append_nil] at h2
  rw [toKey, List.append_assoc, h2]
  simp [encodeTimestamp, List.cons_append, keyLt_nil_cons]

/-- Comparison of two full keys: group by address, then timestamp, then hash. -/
theorem keyLt_toKey_iff {a a' : Bytes} {t t' : Nat} {h h' : Bytes}
    (hv : ValidEntry a t h) (hv' : ValidEntry a' t' h') :
    keyLt (toKey a t h) (toKey a' t' h') ↔
      keyLt a a' ∨ (a = a' ∧ (t < t' ∨ (t = t' ∧ keyLt h h'))) := by
  obtain ⟨ha, -, ht, hh⟩ := hv
  obtain ⟨ha', -, ht', hh'⟩ := hv'
  rw [toKey, toKey, List.append_assoc, List.append_assoc,
    keyLt_append_iff a a' _ _ (ha.trans ha'.symm),
    keyLt_append_iff (encodeTimestamp t) (encodeTimestamp t') h h'
      ((encodeTimestamp_length t).trans (encodeTimestamp_length t').symm),
    encodeTimestamp_lt_iff ht ht']
  constructor
  · rintro (hlt | ⟨rfl, hlt | ⟨henc, hlex⟩⟩)
    · exact Or.inl hlt
    · exact Or.inr ⟨rfl, Or.inl hlt⟩
    · exact Or.inr ⟨rfl, Or.inr ⟨encodeTimestamp_inj ht ht' henc, hlex⟩⟩
  · rintro (hlt | ⟨rfl, hlt | ⟨rfl, hlex⟩⟩)
    · exact Or.inl hlt
    · exact Or.inr ⟨rfl, Or.inl hlt⟩
    · exact Or.inr ⟨rfl, Or.inr ⟨rfl, hlex⟩⟩

/-- Addresses are monotone along the key order. -/
theorem addr_le_of_keyLt {a a' : Bytes} {t t' : Nat} {h h' : Bytes}
    (hlen : a.length = a'.length)
    (hk : keyLt (toKey a t h) (toKey a' t' h')) : keyLt a a' ∨ a = a' := by
  rw [toKey, toKey, List.append_assoc, List.append_assoc,
    keyLt_append_iff a a' _ _ hlen] at hk
  tauto

/-! ## Correctness of the seek-and-scan iteration -/

theorem scanCollect_of_ge (A : Bytes) :
    ∀ (ks : Keyspace), ks.Sorted keyLt →
      (∀ k ∈ ks, ∃ a t h, ValidEntry a t h ∧ k = toKey a t h ∧ ¬ keyLt a A) →
      scanCollect A ks =
        some ((ks.filter (fun k => decide (k.take 34 = A))).map (fun k => k.drop 38))
  | [], _, _ => by simp [scanCollect]
  | k :: ks, hs, hv => by
      obtain ⟨a, t, h, hve, rfl, hge⟩ := hv _ (List.mem_cons_self _ _)
      have htake : (toKey a t h).take 34 = a := toKey_take t h hve.1
      have hdrop : (toKey a t h).drop 38 = h := toKey_drop38 t h hve.1
      rw [List.sorted_cons] at hs
      by_cases haA : a = A
      · subst haA
        have hrec := scanCollect_of_ge a ks hs.2 (fun k' hk' => hv k' (List.mem_cons_of_mem _ hk'))
        simp [scanCollect, fromKey_toKey hve, hrec, List.filter_cons, htake, hdrop]
      · have hAa : keyLt A a := by
          rcases keyLt_trichotomy a A with hc | hc | hc
          · exact absurd hc hge
          · exact absurd hc haA
          · exact hc
        have hfil : (ks.filter (fun k => decide (k.take 34 = A))) = [] := by
          rw [List.filter_eq_nil_iff]
          intro k' hk'
          obtain ⟨a', t', h', hve', rfl, -⟩ := hv k' (List.mem_cons_of_mem _ hk')
          have hkk : keyLt (toKey a t h) (toKey a' t' h') := hs.1 _ hk'
          have hle := addr_le_of_keyLt (hve.1.trans hve'.1.symm) hkk
          have hne : a' ≠ A := by
            rintro rfl
            rcases hle with hlt | heq
            · exact keyLt_asymm hAa hlt
            · exact keyLt_irrefl _ (heq ▸ hAa)
          simp [toKey_take t' h' hve'.1, hne]
        simp [scanCollect, fromKey_toKey hve, haA, List.filter_cons, htake, hfil]

theorem getFromAddress_eq (A : Bytes) (hA34 : A.length = 34) :
    ∀ (ks : Keyspace), ks.Sorted keyLt → ValidKeyspace ks →
      getFromAddress A ks =
        some ((ks.filter (fun k => decide (k.take 34 = A))).map (fun k => k.drop 38))
  | [], _, _ => by simp [getFromAddress, seek, scanCollect]
  | k :: ks, hs, hv => by
      obtain ⟨a, t, h, hve, rfl⟩ := hv _ (List.mem_cons_self _ _)
      rw [List.sorted_cons] at hs
      by_cases hlt : keyLt a A
      · have hkA : keyLt (toKey a t h) A :=
          (keyLt_key_target t h (hve.1.trans hA34.symm)).mpr hlt
        have hrec := getFromAddress_eq A hA34 ks hs.2
          (fun k' hk' => hv k' (List.mem_cons_of_mem _ hk'))
        have hne : a ≠ A := by
          rintro rfl
          exact keyLt_irrefl a hlt
        have hstep : getFromAddress A (toKey a t h :: ks) = getFromAddress A ks := by
          rw [getFromAddress, getFromAddress, seek, seek, toSeekKey,
            List.dropWhile_cons, if_pos (decide_eq_true hkA)]
        rw [hstep, hrec, List.filter_cons]
        simp [toKey_take t h hve.1, hne]
      · have hkA : ¬ keyLt (toKey a t h) A := by
          rw [keyLt_key_target t h (hve.1.trans hA34.symm)]
          exact hlt
        have hstep : getFromAddress A (toKey a t h :: ks) =
            scanCollect A (toKey a t h :: ks) := by
          rw [getFromAddress, seek, toSeekKey, List.dropWhile_cons,
            if_neg (by simpa using hkA)]
        rw [hstep]
        apply scanCollect_of_ge
        · exact List.sorted_cons.mpr hs
        · intro k' hk'
          rcases List.mem_cons.mp hk' with rfl | hk'
          · exact ⟨a, t, h, hve, rfl, hlt⟩
          · obtain ⟨a', t', h', hve', rfl⟩ := hv k' (List.mem_cons_of_mem _ hk')
            refine ⟨a', t', h', hve', rfl, ?_⟩
            have hkk := hs.1 _ hk'
            have hle := addr_le_of_keyLt (hve.1.trans hve'.1.symm) hkk
            intro hlt'
            rcases hle with hc | heq
            · exact hlt (keyLt_trans hc hlt')
            · exact hlt (heq ▸ hlt')

/-! ## Decoding helpers -/

theorem decodeSuffix_toKey {a : Bytes} {t : Nat} {h : Bytes}
    (hv : ValidEntry a t h) : decodeSuffix (toKey a t h) = (t, h) := by
  obtain ⟨ha, -, ht, -⟩ := hv
  rw [decodeSuffix, toKey_drop34 t h ha, List.take_left' (encodeTimestamp_length t),
    decode_encodeTimestamp ht, toKey_drop38 t h ha]

theorem storedKeyOK_toKey {a : Bytes} (t : Nat) {h : Bytes} (ha : a.length = 34)
    (hascii : ∀ b ∈ a, b < 128) (hh : h.length = 32) :
    StoredKeyOK (toKey a t h) :=
  ⟨toKey_length t ha hh, by rw [toKey_take t h ha]; exact hascii⟩

theorem fromKey_isSome_of_ok {k : Bytes} (hk : StoredKeyOK k) :
    (fromKey k).isSome = true := by
  obtain ⟨hlen, hascii⟩ := hk
  have h1 : k.length = 34 + 4 + 32 := by omega
  have h2 : isAscii (k.take 34) = true :=
    List.all_eq_true.mpr fun b hb => decide_eq_true (hascii b hb)
  rw [fromKey, if_pos h1, if_pos h2, Option.isSome_some]

/-! ## Column-family lifecycle lemmas -/

theorem dbPutAll_spec (cf : ColumnFamily) :
    ∀ (ks : List Bytes) (db : RocksDB),
      (dbPutAll cf ks db).families = db.families ∧
      (dbPutAll cf ks db).nextId = db.nextId ∧
      ∀ e ∈ (dbPutAll cf ks db).data, e ∈ db.data ∨ e.1 = cf.id
  | [], db => ⟨rfl, rfl, fun _ he => Or.inl he⟩
  | k :: ks, db => by
      have hstep := dbPutAll_spec cf ks (dbPut cf k db)
      have hunfold : dbPutAll cf (k :: ks) db = dbPutAll cf ks (dbPut cf k db) := rfl
      rw [hunfold]
      refine ⟨?_, ?_, ?_⟩
      · rw [hstep.1, dbPut]
        split <;> rfl
      · rw [hstep.2.1, dbPut]
        split <;> rfl
      · intro e he
        rcases hstep.2.2 e he with hmem | hid
        · rw [dbPut] at hmem
          split at hmem
          · exact Or.inl hmem
          · rcases List.mem_cons.mp hmem with rfl | hmem
            · exact Or.inr rfl
            · exact Or.inl hmem
        · exact Or.inr hid

/-- What one `_fresh_cf(name)` call does on a well-formed database: it
succeeds, hands out the next fresh id, bumps the id counter, registers the
new family in front, and keeps only (a subset of) the old entries. -/
theorem freshCf_of_wf {db : RocksDB} (name : Bytes) (hwf : DbWF db) :
    ∃ fams dat,
      freshCf name db =
        some (⟨name, db.nextId⟩,
          { nextId := db.nextId + 1
            families := ⟨name, db.nextId⟩ :: fams
            data := dat }) ∧
      (∀ cf ∈ fams, cf ∈ db.families) ∧ ∀ e ∈ dat, e ∈ db.data := by
  cases hfind : getColumnFamily name db with
  | none =>
      refine ⟨db.families, db.data, ?_, fun cf hcf => hcf, fun e he => he⟩
      rw [freshCf]
      simp [hfind, createColumnFamily]
  | some cf0 =>
      have hmem : cf0 ∈ db.families :=
        List.mem_of_find?_eq_some hfind
      have hid : cf0.id < db.nextId := hwf.1 cf0 hmem
      refine ⟨(db.families.filter (fun c => decide (c.id ≠ cf0.id))),
        (db.data.filter (fun e => decide (e.1 ≠ cf0.id))), ?_,
        fun cf hcf => (List.mem_filter.mp hcf).1,
        fun e he => (List.mem_filter.mp he).1⟩
      rw [freshCf]
      simp only [hfind, createColumnFamily, dropColumnFamily]
      rw [if_pos]
      exact decide_eq_true (Nat.ne_of_gt hid)

/-! ## Claims -/

/-- C1: the source's `is_address_empty` does not return true iff no stored
key has the queried address.  Evaluated on the code: with exactly one entry
for `addrA` in the keyspace it returns `True` where the claim requires
`False`, and with only an `addrB` entry it returns `False` for `addrA`
where the claim requires `True` (the comparison `is_empty = addr == address`
is inverted). -/
theorem c1_is_address_empty_code_eval :
    (∃ k ∈ (addTx txA emptyState).keys, k.take 34 = addrA) ∧
    isAddressEmpty addrA (addTx txA emptyState).keys = some true ∧
    isAddressEmpty addrA (addTx txB emptyState).keys = some false := by
  decide

/-- C2: for a keyspace holding entries of two distinct 34-character ascii
addresses `A` and `B` inserted in any interleaved order,
`get_from_address(A)` succeeds and returns exactly the hashes of the `A`
entries — none of `B`'s — ordered by ascending timestamp, ties broken by
ascending hash bytes. -/
theorem c2_get_from_address_scan (A B : Bytes)
    (es : List (Bytes × Nat × Bytes))
    (hA34 : A.length = 34) (hAascii : ∀ b ∈ A, b < 128)
    (hB34 : B.length = 34) (hBascii : ∀ b ∈ B, b < 128)
    (hAB : A ≠ B)
    (hes : ∀ e ∈ es, (e.1 = A ∨ e.1 = B) ∧ e.2.1 < 4294967296 ∧ e.2.2.length = 32) :
    ∃ ths : List (Nat × Bytes),
      getFromAddress A (insertEntries es []) = some (ths.map Prod.snd) ∧
      (∀ t h, (t, h) ∈ ths ↔ (A, t, h) ∈ es) ∧
      ths.Pairwise tsHashLt ∧
      (∀ t h, (B, t, h) ∈ es → (∀ t', (A, t', h) ∉ es) →
        h ∉ ths.map Prod.snd) := by
  have hval : ∀ e ∈ es, ValidEntry e.1 e.2.1 e.2.2 := by
    intro e he
    obtain ⟨hab, ht, hh⟩ := hes e he
    rcases hab with h1 | h1 <;> rw [h1]
    · exact ⟨hA34, hAascii, ht, hh⟩
    · exact ⟨hB34, hBascii, ht, hh⟩
  have hsort : (insertEntries es []).Sorted keyLt :=
    sorted_foldl_putKey (fun e : Bytes × Nat × Bytes => toKey e.1 e.2.1 e.2.2) es List.sorted_nil
  have hvks : ValidKeyspace (insertEntries es []) := by
    intro k hk
    rcases (mem_foldl_putKey (fun e : Bytes × Nat × Bytes => toKey e.1 e.2.1 e.2.2) es [] k).mp hk with
      ⟨e, he, rfl⟩ | hk0
    · exact ⟨e.1, e.2.1, e.2.2, hval e he, rfl⟩
    · exact absurd hk0 (List.not_mem_nil k)
  have hmain := getFromAddress_eq A hA34 (insertEntries es []) hsort hvks
  have hmemiff : ∀ t h,
      (t, h) ∈ ((insertEntries es []).filter
        (fun k => decide (k.take 34 = A))).map decodeSuffix ↔ (A, t, h) ∈ es := by
    intro t h
    constructor
    · intro hth
      obtain ⟨k, hkf, hdec⟩ := List.mem_map.mp hth
      obtain ⟨hk, htake⟩ := List.mem_filter.mp hkf
      rcases (mem_foldl_putKey (fun e : Bytes × Nat × Bytes => toKey e.1 e.2.1 e.2.2) es [] k).mp hk with
        ⟨⟨e1, e2, e3⟩, he, rfl⟩ | hk0
      · have hve : ValidEntry e1 e2 e3 := hval (e1, e2, e3) he
        have he1 : e1 = A := by
          have h1 := of_decide_eq_true htake
          rwa [toKey_take e2 e3 hve.1] at h1
        rw [decodeSuffix_toKey hve] at hdec
        injection hdec with hd1 hd2
        subst he1; subst hd1; subst hd2
        exact he
      · exact absurd hk0 (List.not_mem_nil k)
    · intro hAth
      have hve : ValidEntry A t h := hval (A, t, h) hAth
      have hkmem : toKey A t h ∈ insertEntries es [] :=
        (mem_foldl_putKey (fun e : Bytes × Nat × Bytes => toKey e.1 e.2.1 e.2.2) es [] _).mpr
          (Or.inl ⟨(A, t, h), hAth, rfl⟩)
      exact List.mem_map.mpr ⟨toKey A t h,
        List.mem_filter.mpr ⟨hkmem, decide_eq_true (toKey_take t h hve.1)⟩,
        decodeSuffix_toKey hve⟩
  refine ⟨((insertEntries es []).filter
      (fun k => decide (k.take 34 = A))).map decodeSuffix, ?_, hmemiff, ?_, ?_⟩
  · rw [hmain, List.map_map]
    rfl
  · rw [List.pairwise_map]
    have hfil : ((insertEntries es []).filter
        (fun k => decide (k.take 34 = A))).Sorted keyLt :=
      List.Pairwise.filter _ hsort
    refine List.Pairwise.imp_of_mem ?_ hfil
    intro k1 k2 hk1 hk2 hlt
    obtain ⟨hk1m, ht1⟩ := List.mem_filter.mp hk1
    obtain ⟨hk2m, ht2⟩ := List.mem_filter.mp hk2
    rcases (mem_foldl_putKey (fun e : Bytes × Nat × Bytes => toKey e.1 e.2.1 e.2.2) es [] k1).mp hk1m with
      ⟨⟨e1, e2, e3⟩, he, rfl⟩ | h0
    · rcases (mem_foldl_putKey (fun e : Bytes × Nat × Bytes => toKey e.1 e.2.1 e.2.2) es [] k2).mp hk2m with
        ⟨⟨f1, f2, f3⟩, hf, rfl⟩ | h0
      · have hve : ValidEntry e1 e2 e3 := hval (e1, e2, e3) he
        have hvf : ValidEntry f1 f2 f3 := hval (f1, f2, f3) hf
        have he1 : e1 = A := by
          have h1 := of_decide_eq_true ht1
          rwa [toKey_take e2 e3 hve.1] at h1
        have hf1 : f1 = A := by
          have h1 := of_decide_eq_true ht2
          rwa [toKey_take f2 f3 hvf.1] at h1
        subst he1; subst hf1
        rw [keyLt_toKey_iff hve hvf] at hlt
        rcases hlt with hc | ⟨-, hc⟩
        · exact absurd hc (keyLt_irrefl _)
        · rw [decodeSuffix_toKey hve, decodeSuffix_toKey hvf]
          exact hc
      · exact absurd h0 (List.not_mem_nil _)
    · exact absurd h0 (List.not_mem_nil _)
  · intro t h hBmem hnotA hmem
    obtain ⟨p, hp, hsnd⟩ := List.mem_map.mp hmem
    obtain ⟨p1, p2⟩ := p
    cases hsnd
    exact hnotA p1 ((hmemiff p1 p2).mp hp)

/-- C2 witness: the claim instantiated at two concrete addresses with three
interleaved entries. -/
theorem c2_get_from_address_scan_witness :
    (addrA.length = 34 ∧ (∀ b ∈ addrA, b < 128) ∧
     addrB.length = 34 ∧ (∀ b ∈ addrB, b < 128) ∧ addrA ≠ addrB ∧
     ∀ e ∈ [(addrA, 100, hash1), (addrB, 100, hash2), (addrA, 50, hash2)],
       (e.1 = addrA ∨ e.1 = addrB) ∧ e.2.1 < 4294967296 ∧ e.2.2.length = 32) ∧
    ∃ ths : List (Nat × Bytes),
      getFromAddress addrA
        (insertEntries [(addrA, 100, hash1), (addrB, 100, hash2),
          (addrA, 50, hash2)] []) = some (ths.map Prod.snd) ∧
      (∀ t h, (t, h) ∈ ths ↔
        (addrA, t, h) ∈ [(addrA, 100, hash1), (addrB, 100, hash2),
          (addrA, 50, hash2)]) ∧
      ths.Pairwise tsHashLt ∧
      (∀ t h, (addrB, t, h) ∈ [(addrA, 100, hash1), (addrB, 100, hash2),
          (addrA, 50, hash2)] →
        (∀ t', (addrA, t', h) ∉ [(addrA, 100, hash1), (addrB, 100, hash2),
          (addrA, 50, hash2)]) → h ∉ ths.map Prod.snd) :=
  ⟨⟨by decide, by decide, by decide, by decide, by decide, by decide⟩,
   c2_get_from_address_scan addrA addrB
     [(addrA, 100, hash1), (addrB, 100, hash2), (addrA, 50, hash2)]
     (by decide) (by decide) (by decide) (by decide) (by decide) (by decide)⟩

/-- C3: decoding the 70-byte key produced by encoding a valid address and
transaction reference returns exactly the address, timestamp and hash. -/
theorem c3_key_roundtrip (a : Bytes) (t : Nat) (h : Bytes)
    (hv : ValidEntry a t h) : fromKey (toKey a t h) = some (a, t, h) :=
  fromKey_toKey hv

/-- C3 witness: the round trip evaluated at a concrete entry. -/
theorem c3_key_roundtrip_witness :
    ValidEntry addrA 100 hash1 ∧
    fromKey (toKey addrA 100 hash1) = some (addrA, 100, hash1) :=
  ⟨by decide, c3_key_roundtrip addrA 100 hash1 (by decide)⟩

/-- C4: the 4-byte big-endian timestamp encoding is strictly monotone with
respect to the byte-lexicographic order. -/
theorem c4_encode_timestamp_mono (t1 t2 : Nat) (h1 : t1 < 4294967296)
    (h2 : t2 < 4294967296) (hlt : t1 < t2) :
    keyLt (encodeTimestamp t1) (encodeTimestamp t2) :=
  (encodeTimestamp_lt_iff h1 h2).mpr hlt

/-- C4 witness: monotonicity evaluated at two concrete timestamps. -/
theorem c4_encode_timestamp_mono_witness :
    ((100 : Nat) < 4294967296 ∧ (4294967295 : Nat) < 4294967296 ∧
      (100 : Nat) < 4294967295) ∧
    keyLt (encodeTimestamp 100) (encodeTimestamp 4294967295) :=
  ⟨⟨by decide, by decide, by decide⟩,
   c4_encode_timestamp_mono 100 4294967295 (by decide) (by decide) (by decide)⟩

/-- C5: on a completely empty keyspace the source's `is_address_empty`
fails for every queried address (the seek lands past the end, `it.get()`
yields nothing and `_from_key` raises) instead of returning true as the
claim requires. -/
theorem c5_is_address_empty_empty_keyspace (address : Bytes) :
    isAddressEmpty address emptyState.keys = none :=
  rfl

/-- C6: on a sorted keyspace, adding the same transaction twice leaves the
key set exactly as adding it once does. -/
theorem c6_add_tx_idempotent (tx : Tx) (s : IndexState)
    (hs : s.keys.Sorted keyLt) :
    (addTx tx (addTx tx s)).keys = (addTx tx s).keys := by
  apply sorted_eq_of_mem_iff
  · exact sorted_foldl_putKey (fun a => toKey a tx.timestamp tx.hash)
      tx.addresses (sorted_foldl_putKey (fun a => toKey a tx.timestamp tx.hash)
        tx.addresses hs)
  · exact sorted_foldl_putKey (fun a => toKey a tx.timestamp tx.hash)
      tx.addresses hs
  · intro x
    constructor
    · intro hx
      rcases (mem_foldl_putKey (fun a => toKey a tx.timestamp tx.hash)
          tx.addresses (addTx tx s).keys x).mp hx with h1 | h1
      · exact (mem_foldl_putKey (fun a => toKey a tx.timestamp tx.hash)
          tx.addresses s.keys x).mpr (Or.inl h1)
      · exact h1
    · intro hx
      exact (mem_foldl_putKey (fun a => toKey a tx.timestamp tx.hash)
        tx.addresses (addTx tx s).keys x).mpr (Or.inr hx)

/-- C6 witness: idempotence evaluated from the empty state. -/
theorem c6_add_tx_idempotent_witness :
    emptyState.keys.Sorted keyLt ∧
    (addTx txA (addTx txA emptyState)).keys = (addTx txA emptyState).keys :=
  ⟨List.sorted_nil, c6_add_tx_idempotent txA emptyState List.sorted_nil⟩

set_option maxRecDepth 8000 in
/-- C7 counterexample: a transaction `txA` whose key for `addrA` is already
present (no entries for `addrA` from any other transaction exist), with an
unrelated `addrB` entry alongside.  `add_tx(txA)` is then a no-op on the
keys but `remove_tx(txA)` deletes the entry, so `is_address_empty(addrA)`
changes across the add/remove pair instead of being restored. -/
theorem c7_counterexample :
    (∀ k ∈ (addTx txA (addTx txB emptyState)).keys, k.take 34 = addrA →
        k = toKey addrA txA.timestamp txA.hash) ∧
    addrA ∈ txA.addresses ∧
    isAddressEmpty addrA
        (removeTx txA (addTx txA (addTx txA (addTx txB emptyState)))).keys ≠
      isAddressEmpty addrA (addTx txA (addTx txB emptyState)).keys := by
  decide

/-- C7 (amended): when none of the transaction's keys are present before the
add, `remove_tx(tx)` right after `add_tx(tx)` restores the keyspace exactly,
and hence the outcome of `is_address_empty` (including its failure
behaviour) for every address. -/
theorem c7_remove_after_add_restores (tx : Tx) (s : IndexState)
    (hs : s.keys.Sorted keyLt)
    (habs : ∀ a ∈ tx.addresses, toKey a tx.timestamp tx.hash ∉ s.keys) :
    (removeTx tx (addTx tx s)).keys = s.keys ∧
    ∀ a, isAddressEmpty a (removeTx tx (addTx tx s)).keys =
      isAddressEmpty a s.keys := by
  have hkeys : (removeTx tx (addTx tx s)).keys = s.keys := by
    apply sorted_eq_of_mem_iff
    · exact sorted_foldl_delKey (fun a => toKey a tx.timestamp tx.hash)
        tx.addresses (sorted_foldl_putKey (fun a => toKey a tx.timestamp tx.hash)
          tx.addresses hs)
    · exact hs
    · intro x
      constructor
      · intro hx
        obtain ⟨hmem, hall⟩ := (mem_foldl_delKey
          (fun a => toKey a tx.timestamp tx.hash) tx.addresses
          (addTx tx s).keys x).mp hx
        rcases (mem_foldl_putKey (fun a => toKey a tx.timestamp tx.hash)
            tx.addresses s.keys x).mp hmem with ⟨a, ha, rfl⟩ | h1
        · exact absurd rfl (hall a ha)
        · exact h1
      · intro hx
        refine (mem_foldl_delKey (fun a => toKey a tx.timestamp tx.hash)
          tx.addresses (addTx tx s).keys x).mpr ⟨?_, ?_⟩
        · exact (mem_foldl_putKey (fun a => toKey a tx.timestamp tx.hash)
            tx.addresses s.keys x).mpr (Or.inr hx)
        · intro a ha heq
          exact habs a ha (heq ▸ hx)
  exact ⟨hkeys, fun a => by rw [hkeys]⟩

/-- C7 amended witness: restoration evaluated from the empty state. -/
theorem c7_remove_after_add_restores_witness :
    (emptyState.keys.Sorted keyLt ∧
      ∀ a ∈ txA.addresses,
        toKey a txA.timestamp txA.hash ∉ emptyState.keys) ∧
    (removeTx txA (addTx txA emptyState)).keys = emptyState.keys ∧
    ∀ a, isAddressEmpty a (removeTx txA (addTx txA emptyState)).keys =
      isAddressEmpty a emptyState.keys :=
  ⟨⟨List.sorted_nil, by decide⟩,
   c7_remove_after_add_restores txA emptyState List.sorted_nil (by decide)⟩

/-- C8: `remove_tx` publishes nothing on the event bus — the publication log
is left untouched — and its only effect on the keyspace is to delete the
keys of the transaction's addresses (deleting an absent key is a no-op). -/
theorem c8_remove_tx_publishes_nothing (tx : Tx) (s : IndexState) :
    (removeTx tx s).published = s.published ∧
    ∀ k, k ∈ (removeTx tx s).keys ↔
      k ∈ s.keys ∧ ∀ a ∈ tx.addresses, k ≠ toKey a tx.timestamp tx.hash :=
  ⟨rfl, fun k => mem_foldl_delKey (fun a => toKey a tx.timestamp tx.hash)
    tx.addresses s.keys k⟩

/-- C9: on a well-formed database, opening the column family twice with the
same name gives a second handle with a different internal id and an empty
entry set, even when entries were inserted between the two opens. -/
theorem c9_fresh_cf_twice (db : RocksDB) (name : Bytes) (ks : List Bytes)
    (hwf : DbWF db) :
    ∃ cf1 db1 cf2 db3,
      freshCf name db = some (cf1, db1) ∧
      freshCf name (dbPutAll cf1 ks db1) = some (cf2, db3) ∧
      cf2.id ≠ cf1.id ∧ cfKeys cf2 db3 = [] := by
  obtain ⟨fams, dat, hopen1, hfams, hdat⟩ := freshCf_of_wf name hwf
  set cf1 : ColumnFamily := ⟨name, db.nextId⟩ with hcf1
  set db1 : RocksDB :=
    { nextId := db.nextId + 1, families := cf1 :: fams, data := dat } with hdb1
  obtain ⟨hfam2, hnext2, hdata2⟩ := dbPutAll_spec cf1 ks db1
  have hwf2 : DbWF (dbPutAll cf1 ks db1) := by
    constructor
    · intro cf hcf
      rw [hfam2] at hcf
      rw [hnext2]
      rcases List.mem_cons.mp hcf with rfl | hcf
      · exact Nat.lt_succ_self _
      · exact Nat.lt_succ_of_lt (hwf.1 cf (hfams cf hcf))
    · intro e he
      rw [hnext2]
      rcases hdata2 e he with hmem | hide
      · exact Nat.lt_succ_of_lt (hwf.2 e (hdat e hmem))
      · rw [hide]
        exact Nat.lt_succ_self _
  obtain ⟨fams2, dat2, hopen2, hfams2, hdat2⟩ := freshCf_of_wf name hwf2
  rw [hnext2] at hopen2
  refine ⟨cf1, db1, ⟨name, db.nextId + 1⟩, _, hopen1, hopen2, ?_, ?_⟩
  · intro hid
    exact Nat.succ_ne_self db.nextId hid
  · rw [cfKeys]
    have hnil : dat2.filter (fun e => decide (e.1 = db.nextId + 1)) = [] := by
      rw [List.filter_eq_nil_iff]
      intro e he
      have hlt : e.1 < db.nextId + 1 := by
        rcases hdata2 e (hdat2 e he) with hmem | hide
        · exact Nat.lt_succ_of_lt (hwf.2 e (hdat e hmem))
        · rw [hide]
          exact Nat.lt_succ_self _
      simp only [decide_eq_true_eq]
      omega
    rw [hnil, List.map_nil]

/-- C9 witness: the double open evaluated on an empty database with one
entry inserted between the opens. -/
theorem c9_fresh_cf_twice_witness :
    DbWF emptyDb ∧
    ∃ cf1 db1 cf2 db3,
      freshCf addrA emptyDb = some (cf1, db1) ∧
      freshCf addrA (dbPutAll cf1 [hash1] db1) = some (cf2, db3) ∧
      cf2.id ≠ cf1.id ∧ cfKeys cf2 db3 = [] :=
  ⟨by decide, c9_fresh_cf_twice emptyDb addrA [hash1] (by decide)⟩

/-- C10: starting from the fresh empty keyspace, `add_tx` (on arguments
satisfying its own assertions) and `remove_tx` only ever store keys that
are exactly 70 bytes with an ascii 34-byte address, and on every keyspace
of that shape the decoder `_from_key` succeeds for each stored key. -/
theorem c10_stored_keys_wellformed :
    (∀ k ∈ emptyState.keys, StoredKeyOK k) ∧
    (∀ tx s, ValidTx tx → (∀ k ∈ s.keys, StoredKeyOK k) →
      (∀ k ∈ (addTx tx s).keys, StoredKeyOK k) ∧
      (∀ k ∈ (removeTx tx s).keys, StoredKeyOK k)) ∧
    (∀ s : IndexState, (∀ k ∈ s.keys, StoredKeyOK k) →
      ∀ k ∈ s.keys, (fromKey k).isSome = true) := by
  refine ⟨fun k hk => absurd hk (List.not_mem_nil k),
    fun tx s htx hs => ⟨?_, ?_⟩,
    fun s hs k hk => fromKey_isSome_of_ok (hs k hk)⟩
  · intro k hk
    rcases (mem_foldl_putKey (fun a => toKey a tx.timestamp tx.hash)
        tx.addresses s.keys k).mp hk with ⟨a, ha, rfl⟩ | hk1
    · obtain ⟨h34, hascii⟩ := htx.2.2 a ha
      exact storedKeyOK_toKey tx.timestamp h34 hascii htx.1
    · exact hs k hk1
  · intro k hk
    exact hs k ((mem_foldl_delKey (fun a => toKey a tx.timestamp tx.hash)
      tx.addresses s.keys k).mp hk).1

/-- C10 witness: preservation evaluated at a concrete valid transaction
added to the empty state. -/
theorem c10_stored_keys_wellformed_witness :
    ValidTx txA ∧ ∀ k ∈ (addTx txA emptyState).keys, StoredKeyOK k :=
  ⟨by decide, (c10_stored_keys_wellformed.2.1 txA emptyState (by decide)
    (fun k hk => absurd hk (List.not_mem_nil k))).1⟩

end Khathor
